import Mathlib

set_option maxRecDepth 8000

/-!
Verification of the BDK wallet core value types (`crates/bdk/src/types.rs`).

The Rust code stores fee rates in an `f32` and converts transaction sizes
through `f32` arithmetic.  We embed that arithmetic exactly: a finite `f32`
value is represented by the rational number it denotes, and every Rust
floating-point operation is modelled as the exact rational operation followed
by `f32round`, IEEE-754 round-to-nearest (ties to even) at 24 bits of
significand.  The model is exact on the normal range of `f32`
(magnitudes between `2 ^ (-126)` and `2 ^ 128`), which covers every value
appearing in the claims; overflow to infinity and graduated subnormal
rounding are outside its domain.  Rust panics (assertion failures, the
out-of-bounds index and the `unreachable!` arm) are modelled as `none` of an
`Option` result; normal returns are `some`.
-/

/-- Powers of two as rationals: `pow2 e = 2 ^ e` for `e : ℤ`, written by cases
on the integer so that the kernel can evaluate it on concrete inputs. -/
def pow2 : ℤ → ℚ
  | .ofNat n => ((2 ^ n : ℕ) : ℚ)
  | .negSucc n => 1 / ((2 ^ (n + 1) : ℕ) : ℚ)

theorem pow2_eq_zpow (e : ℤ) : pow2 e = (2 : ℚ) ^ e := by
  cases e with
  | ofNat n => simp [pow2, zpow_natCast]
  | negSucc n => simp [pow2, zpow_negSucc, one_div]

theorem pow2_natCast (n : ℕ) : pow2 (n : ℤ) = ((2 ^ n : ℕ) : ℚ) := rfl

theorem pow2_zero : pow2 0 = 1 := by
  rw [pow2_eq_zpow]; exact zpow_zero 2

theorem pow2_pos (e : ℤ) : 0 < pow2 e := by
  rw [pow2_eq_zpow]; exact zpow_pos (by norm_num) e

theorem pow2_add (a b : ℤ) : pow2 (a + b) = pow2 a * pow2 b := by
  rw [pow2_eq_zpow, pow2_eq_zpow, pow2_eq_zpow]
  exact zpow_add₀ (by norm_num) a b

theorem pow2_le_pow2 {a b : ℤ} (h : a ≤ b) : pow2 a ≤ pow2 b := by
  rw [pow2_eq_zpow, pow2_eq_zpow]
  exact zpow_le_zpow_right₀ (by norm_num) h

/-- Round a rational to the nearest integer, ties to even: the rounding mode
used by Rust (IEEE-754) `f32` arithmetic. -/
def rne (q : ℚ) : ℤ :=
  if q - ⌊q⌋ < 1 / 2 then ⌊q⌋
  else if (1 : ℚ) / 2 < q - ⌊q⌋ then ⌊q⌋ + 1
  else if ⌊q⌋ % 2 = 0 then ⌊q⌋ else ⌊q⌋ + 1

theorem rne_intCast (n : ℤ) : rne (n : ℚ) = n := by
  simp [rne]

theorem rne_nonneg {q : ℚ} (h : 0 ≤ q) : 0 ≤ rne q := by
  have hf : (0 : ℤ) ≤ ⌊q⌋ := Int.floor_nonneg.mpr h
  unfold rne
  split
  · exact hf
  · split
    · omega
    · split
      · exact hf
      · omega

/-- Binary exponent of a positive rational by bounded upward search: starting
from `e`, increase the exponent while `2 ^ (e + 1) ≤ q` and fuel remains. -/
def expSearch : ℕ → ℤ → ℚ → ℤ
  | 0, e, _ => e
  | f + 1, e, q => if pow2 (e + 1) ≤ q then expSearch f (e + 1) q else e

/-- `qExp q` is `⌊log2 q⌋` for positive `q` in the `f32` range (searching
upward from `2 ^ (-150)` with 300 steps of fuel, enough to reach `2 ^ 150`). -/
def qExp (q : ℚ) : ℤ := expSearch 300 (-150) q

theorem expSearch_spec :
    ∀ (f : ℕ) (e : ℤ) (q : ℚ), pow2 e ≤ q → q < pow2 (e + f + 1) →
      pow2 (expSearch f e q) ≤ q ∧ q < pow2 (expSearch f e q + 1) := by
  intro f
  induction f with
  | zero =>
    intro e q hle hlt
    exact ⟨hle, by simpa using hlt⟩
  | succ n ih =>
    intro e q hle hlt
    rw [expSearch]
    split
    · apply ih
      · assumption
      · have h : e + 1 + n + 1 = e + (n + 1) + 1 := by ring
        rw [h]
        exact_mod_cast hlt
    · exact ⟨hle, lt_of_not_le (by assumption)⟩

theorem qExp_spec {q : ℚ} (h1 : pow2 (-150) ≤ q) (h2 : q < pow2 151) :
    pow2 (qExp q) ≤ q ∧ q < pow2 (qExp q + 1) := by
  have h : q < pow2 (-150 + 300 + 1) := by norm_num; exact h2
  exact expSearch_spec 300 (-150) q h1 h

theorem exp_unique {q : ℚ} {a b : ℤ} (ha1 : pow2 a ≤ q) (ha2 : q < pow2 (a + 1))
    (hb1 : pow2 b ≤ q) (hb2 : q < pow2 (b + 1)) : a = b := by
  by_contra hne
  rcases lt_or_gt_of_ne hne with h | h
  · have hab : pow2 (a + 1) ≤ pow2 b := pow2_le_pow2 (by omega)
    linarith
  · have hba : pow2 (b + 1) ≤ pow2 a := pow2_le_pow2 (by omega)
    linarith

/-- Round a positive rational to the nearest `f32` value (24-bit significand,
round-to-nearest, ties to even). -/
def f32roundPos (q : ℚ) : ℚ := (rne (q * pow2 (23 - qExp q)) : ℚ) * pow2 (qExp q - 23)

/-- Model of a Rust `f32` arithmetic result: round the exact rational value to
the nearest representable `f32` (ties to even).  Exact on the normal range;
overflow and graduated subnormal rounding are outside the model's domain. -/
def f32round (q : ℚ) : ℚ :=
  if q ≤ 0 then (if q = 0 then 0 else -f32roundPos (-q)) else f32roundPos q

theorem f32round_zero : f32round 0 = 0 := by simp [f32round]

theorem f32round_neg (q : ℚ) : f32round (-q) = -f32round q := by
  rcases lt_trichotomy q 0 with h | h | h
  · have h1 : ¬(-q ≤ 0) := by simp; linarith
    have h2 : q ≤ 0 := le_of_lt h
    have h3 : q ≠ 0 := ne_of_lt h
    simp only [f32round, if_neg h1, if_pos h2, if_neg h3, neg_neg]
  · subst h
    simp [f32round]
  · have h1 : -q ≤ 0 := by linarith
    have h2 : ¬(-q = 0) := by simp; exact ne_of_gt h
    have h3 : ¬(q ≤ 0) := by simp; exact h
    simp only [f32round, if_pos h1, if_neg h2, if_neg h3, neg_neg]

theorem f32round_pos_eq {q : ℚ} (h : 0 < q) : f32round q = f32roundPos q := by
  rw [f32round, if_neg (by simp; exact h)]

theorem f32round_nonneg {q : ℚ} (h : 0 ≤ q) : 0 ≤ f32round q := by
  rcases eq_or_lt_of_le h with h0 | h0
  · rw [← h0, f32round_zero]
  · rw [f32round_pos_eq h0, f32roundPos]
    have hr : 0 ≤ rne (q * pow2 (23 - qExp q)) :=
      rne_nonneg (mul_nonneg (le_of_lt h0) (le_of_lt (pow2_pos _)))
    exact mul_nonneg (by exact_mod_cast hr) (le_of_lt (pow2_pos _))

/-- A rational whose scaled significand is already an integer is returned
unchanged by the rounding. -/
theorem f32roundPos_eq_self {q : ℚ}
    (hint : ∃ m : ℤ, q * pow2 (23 - qExp q) = (m : ℚ)) : f32roundPos q = q := by
  obtain ⟨m, hm⟩ := hint
  rw [f32roundPos, hm, rne_intCast, ← hm, mul_assoc, ← pow2_add]
  have h : 23 - qExp q + (qExp q - 23) = 0 := by ring
  rw [h, pow2_zero, mul_one]

/-- Any value of the form `m * 2 ^ t` with `0 < m ≤ 2 ^ 24` (a representable
`f32` in the modelled range) is a fixed point of `f32round`. -/
theorem f32round_fix {m t : ℤ} (hm0 : 0 < m) (hm : m ≤ 2 ^ 24)
    (ht1 : -150 ≤ t) (ht2 : t ≤ 125) :
    f32round ((m : ℚ) * pow2 t) = (m : ℚ) * pow2 t := by
  set q : ℚ := (m : ℚ) * pow2 t with hq
  have hqpos : 0 < q := mul_pos (by exact_mod_cast hm0) (pow2_pos t)
  -- the binary length of m
  set L : ℕ := Nat.log 2 m.toNat with hL
  have hmN : (1 : ℕ) ≤ m.toNat := by omega
  have hlow : (2 : ℕ) ^ L ≤ m.toNat := Nat.pow_log_le_self 2 (by omega)
  have hhigh : m.toNat < 2 ^ (L + 1) := Nat.lt_pow_succ_log_self (by norm_num) _
  have hL24 : L ≤ 24 := by
    by_contra hc
    have h25 : (2 : ℕ) ^ 25 ≤ 2 ^ L := Nat.pow_le_pow_right (by norm_num) (by omega)
    have : (m.toNat : ℤ) ≤ 2 ^ 24 := by omega
    have : (2 : ℕ) ^ 25 ≤ m.toNat := le_trans h25 hlow
    omega
  -- bracket q between pow2 (L + t) and pow2 (L + t + 1)
  have hcast : ((m.toNat : ℤ) : ℚ) = (m : ℚ) := by
    have : (m.toNat : ℤ) = m := Int.toNat_of_nonneg (le_of_lt hm0)
    exact_mod_cast congrArg (fun z : ℤ => (z : ℚ)) this
  have hlowq : pow2 ((L : ℤ) + t) ≤ q := by
    rw [pow2_add, hq]
    apply mul_le_mul_of_nonneg_right _ (le_of_lt (pow2_pos t))
    rw [pow2_natCast]
    rw [← hcast]
    exact_mod_cast hlow
  have hhighq : q < pow2 ((L : ℤ) + t + 1) := by
    have h1 : (L : ℤ) + t + 1 = ((L + 1 : ℕ) : ℤ) + t := by push_cast; ring
    rw [h1, pow2_add, pow2_natCast]
    apply mul_lt_mul_of_pos_right _ (pow2_pos t)
    rw [← hcast]
    exact_mod_cast hhigh
  -- hence qExp q = L + t
  have hrange1 : pow2 (-150) ≤ q := le_trans (pow2_le_pow2 (by omega)) hlowq
  have hrange2 : q < pow2 151 := lt_of_lt_of_le hhighq (pow2_le_pow2 (by omega))
  obtain ⟨hs1, hs2⟩ := qExp_spec hrange1 hrange2
  have he : qExp q = (L : ℤ) + t := exp_unique hs1 hs2 hlowq hhighq
  -- the scaled significand is an integer
  have hint : ∃ k : ℤ, q * pow2 (23 - qExp q) = (k : ℚ) := by
    rw [he, hq]
    rcases Nat.lt_or_ge L 24 with hL23 | hL24eq
    · refine ⟨m * 2 ^ (23 - L), ?_⟩
      rw [mul_assoc, ← pow2_add]
      have h2 : t + (23 - ((L : ℤ) + t)) = ((23 - L : ℕ) : ℤ) := by omega
      rw [h2, pow2_natCast]
      push_cast
      ring
    · -- L = 24 forces m = 2 ^ 24, and the scaled value is 2 ^ 23
      have hLeq : L = 24 := by omega
      have hm24 : m = 2 ^ 24 := by
        have h1 : (2 : ℕ) ^ 24 ≤ m.toNat := by
          rw [← hLeq]; exact hlow
        omega
      refine ⟨2 ^ 23, ?_⟩
      rw [hm24, hLeq]
      rw [mul_assoc, ← pow2_add]
      have h2 : t + (23 - (((24 : ℕ) : ℤ) + t)) = -1 := by push_cast; ring
      rw [h2]
      have h3 : pow2 (-1) = 1 / 2 := rfl
      rw [h3]
      push_cast
      ring
  rw [f32round_pos_eq hqpos]
  exact f32roundPos_eq_self hint

/-- Specialization: natural numbers up to `2 ^ 24` are fixed points. -/
theorem f32round_natCast {n : ℕ} (h0 : 0 < n) (h : n ≤ 2 ^ 24) :
    f32round (n : ℚ) = (n : ℚ) := by
  have := f32round_fix (m := (n : ℤ)) (t := 0) (by exact_mod_cast h0)
    (by exact_mod_cast h) (by norm_num) (by norm_num)
  rw [pow2_zero, mul_one] at this
  exact_mod_cast this

/-- Specialization: quarters of natural numbers up to `2 ^ 24` are fixed points. -/
theorem f32round_natCast_div_four {n : ℕ} (h0 : 0 < n) (h : n ≤ 2 ^ 24) :
    f32round ((n : ℚ) / 4) = (n : ℚ) / 4 := by
  have h4 : ((n : ℚ)) / 4 = ((n : ℤ) : ℚ) * pow2 (-2) := by
    have : pow2 (-2) = 1 / 4 := rfl
    rw [this]
    push_cast
    ring
  rw [h4]
  exact f32round_fix (by exact_mod_cast h0) (by exact_mod_cast h) (by norm_num) (by norm_num)

/-! ### FeeRate (`crates/bdk/src/types.rs`, `struct FeeRate(f32)`)

`FeeRate::new_checked` asserts `value.is_normal() || value == 0.0` and
`value.is_sign_positive()`, panicking otherwise.  For the classification
claim we model a full `f32` input (NaN, infinities, finite values with a
separate negative-zero flag); for the arithmetic claims we work at the level
of the rational value of a finite, positively-signed `f32`.  A panic is
modelled as `none`. -/

/-- magnitude test of Rust `f32::is_normal` for a finite value: normal means
`2 ^ (-126) ≤ |q| < 2 ^ 128` (zero and subnormals fail, as in Rust). -/
def isNormalMag (q : ℚ) : Bool := decide (pow2 (-126) ≤ |q| ∧ |q| < pow2 128)

/-- A Rust `f32` input as classified by `FeeRate::new_checked`: NaN, an
infinity with its sign, or a finite value given by the rational it denotes
plus a flag marking negative zero (the sign of a nonzero finite value is
determined by the rational itself). -/
inductive F32 where
  | nan : F32
  | inf (neg : Bool) : F32
  | finite (q : ℚ) (negZero : Bool) : F32

/-- Rust `f32::is_normal`: finite, nonzero, not subnormal. -/
def F32.is_normal : F32 → Bool
  | .finite q _ => isNormalMag q
  | _ => false

/-- The Rust comparison `value == 0.0` (true for both `0.0` and `-0.0`). -/
def F32.eqZero : F32 → Bool
  | .finite q _ => decide (q = 0)
  | _ => false

/-- IEEE-754 sign bit of the value (`f32::NAN` has a clear sign bit). -/
def F32.sign_bit : F32 → Bool
  | .nan => false
  | .inf n => n
  | .finite q nz => if q = 0 then nz else decide (q < 0)

/-- Rust `f32::is_sign_positive`. -/
def F32.is_sign_positive (v : F32) : Bool := !v.sign_bit

/-- `FeeRate::new_checked`: both assertions must pass, else panic (`none`). -/
def FeeRate.new_checked (v : F32) : Option F32 :=
  if (v.is_normal || v.eqZero) && v.is_sign_positive then some v else none

/-- The `new_checked` validity test at the rational-value level, for finite
values whose sign bit agrees with the rational (a computed zero reaching the
constructors from nonnegative inputs is `+0.0`, so `0 ≤ q` captures
`is_sign_positive`). -/
def validRate (q : ℚ) : Bool := (isNormalMag q || decide (q = 0)) && decide (0 ≤ q)

/-- `new_checked` on a finite, non-negative-zero value, returning the stored
rational. -/
def FeeRate.new_checkedQ (q : ℚ) : Option ℚ := if validRate q then some q else none

/-- `FeeRate::from_sat_per_vb`. -/
def FeeRate.from_sat_per_vb (v : ℚ) : Option ℚ := FeeRate.new_checkedQ v

/-- `FeeRate::from_sat_per_kwu`: `new_checked(sat_per_kwu / 250.0)`, the `f32`
division rounding to nearest. -/
def FeeRate.from_sat_per_kwu (v : ℚ) : Option ℚ := FeeRate.new_checkedQ (f32round (v / 250))

/-- `FeeRate::from_sat_per_kvb`: `new_checked(sat_per_kvb / 1000.0)`. -/
def FeeRate.from_sat_per_kvb (v : ℚ) : Option ℚ := FeeRate.new_checkedQ (f32round (v / 1000))

/-- `FeeRate::from_btc_per_kvb`: `new_checked(btc_per_kvb * 1e5)` (`1e5` is
exactly `100000` in `f32`). -/
def FeeRate.from_btc_per_kvb (v : ℚ) : Option ℚ := FeeRate.new_checkedQ (f32round (v * 100000))

/-- `FeeRate::as_sat_per_vb`: the raw stored value. -/
def FeeRate.as_sat_per_vb (r : ℚ) : ℚ := r

/-- `Vbytes for usize`: `(self as f32 / 4.0).ceil() as usize`.  The `usize`
value is first rounded to `f32`, the division by `4.0` is again an `f32`
operation, `ceil` is exact, and the cast back saturates at zero (it cannot go
negative here). -/
def vbytes (wu : ℕ) : ℕ := (⌈f32round (f32round (wu : ℚ) / 4)⌉).toNat

/-- `FeeRate::fee_vb`: `(self.as_sat_per_vb() * vbytes as f32).ceil() as u64`.
The product is an `f32` multiplication (rounded), `ceil` is exact, and the
`as u64` cast saturates at zero for negative values. -/
def FeeRate.fee_vb (rate : ℚ) (vb : ℕ) : ℕ :=
  (⌈f32round (FeeRate.as_sat_per_vb rate * f32round (vb : ℚ))⌉).toNat

/-- `FeeRate::fee_wu`: `self.fee_vb(wu.vbytes())`. -/
def FeeRate.fee_wu (rate : ℚ) (wu : ℕ) : ℕ := FeeRate.fee_vb rate (vbytes wu)

/-- `Sub for FeeRate`: `FeeRate(self.0 - other.0)` — an `f32` subtraction
(rounded to nearest), with no validation of the result. -/
def FeeRate.sub (a b : ℚ) : ℚ := f32round (a - b)

theorem validRate_nonneg {q : ℚ} (h : validRate q = true) : 0 ≤ q := by
  have := (Bool.and_eq_true _ _).mp h
  exact of_decide_eq_true this.2

/-- Ceiling of a quarter of a natural number, as natural division. -/
theorem ceil_natCast_div_four (n : ℕ) : (⌈(n : ℚ) / 4⌉).toNat = (n + 3) / 4 := by
  set k : ℕ := (n + 3) / 4 with hk
  have hk1 : 4 * k ≤ n + 3 := by omega
  have hk2 : n ≤ 4 * k := by omega
  have hq1 : (4 : ℚ) * k ≤ (n : ℚ) + 3 := by exact_mod_cast hk1
  have hq2 : (n : ℚ) ≤ 4 * k := by exact_mod_cast hk2
  have hceil : ⌈(n : ℚ) / 4⌉ = (k : ℤ) := by
    rw [Int.ceil_eq_iff]
    constructor
    · rw [lt_div_iff₀ (by norm_num : (0:ℚ) < 4)]
      push_cast
      linarith
    · rw [div_le_iff₀ (by norm_num : (0:ℚ) < 4)]
      push_cast
      linarith
  rw [hceil, Int.toNat_natCast]

/-- On inputs up to `2 ^ 24` the `f32` arithmetic in `vbytes` is exact and the
result is the true ceiling `⌈wu / 4⌉ = (wu + 3) / 4`. -/
theorem vbytes_exact (wu : ℕ) (h : wu ≤ 2 ^ 24) : vbytes wu = (wu + 3) / 4 := by
  rcases Nat.eq_zero_or_pos wu with h0 | h0
  · subst h0
    have : vbytes 0 = 0 := by
      unfold vbytes
      rw [Nat.cast_zero, f32round_zero, zero_div, f32round_zero]
      simp
    rw [this]
  · unfold vbytes
    rw [f32round_natCast h0 h, f32round_natCast_div_four h0 h, ceil_natCast_div_four]

/-! ### KeychainKind (`enum KeychainKind`) -/

/-- `KeychainKind`: which derivation branch produced an address. -/
inductive KeychainKind where
  | External
  | Internal

/-- `KeychainKind::as_byte`: `b'e'` (101) for `External`, `b'i'` (105) for
`Internal`. -/
def KeychainKind.as_byte : KeychainKind → ℕ
  | .External => 101
  | .Internal => 105

/-- `AsRef for KeychainKind`: the single-byte slices `b"e"` and `b"i"`. -/
def KeychainKind.as_ref : KeychainKind → List ℕ
  | .External => [101]
  | .Internal => [105]

/-! ### Utxo (`enum Utxo`, `struct LocalUtxo`)

`OutPoint`, `TxOut`, `Transaction` and `psbt::Input` come from the
third-party `bitcoin` crate; we model exactly the fields this code reads: a
transaction's output list, an outpoint's transaction id and output index, and
the two optional previous-output fields of a partial-transaction input. -/

/-- A transaction output: value in satoshis and the locking-script bytes. -/
structure TxOut where
  value : ℕ
  script_pubkey : List ℕ

/-- A reference to a previous transaction output. -/
structure OutPoint where
  txid : List ℕ
  vout : ℕ

/-- The part of a previous transaction this code reads: its output list. -/
structure Transaction where
  output : List TxOut

/-- The two fields of `bitcoin::util::psbt::Input` read by `Utxo::txout`. -/
structure PsbtInput where
  non_witness_utxo : Option Transaction
  witness_utxo : Option TxOut

/-- Modelled from the spec: `bdk_chain::ConfirmationTime` (a crate of this
repository outside the provided sources) carries either "unconfirmed" or
"confirmed at height H with timestamp T". -/
inductive ConfirmationTime where
  | confirmed (height : ℕ) (time : ℕ)
  | unconfirmed

/-- `struct LocalUtxo`: an unspent output owned by the wallet. -/
structure LocalUtxo where
  outpoint : OutPoint
  txout : TxOut
  keychain : KeychainKind
  is_spent : Bool
  derivation_index : ℕ
  confirmation_time : ConfirmationTime

/-- `enum Utxo`: locally owned, or foreign with a partial-transaction input. -/
inductive Utxo where
  | Local (lu : LocalUtxo)
  | Foreign (outpoint : OutPoint) (psbt_input : PsbtInput)

/-- `Utxo::txout`.  `Local` returns the stored output.  `Foreign` first
indexes the full previous transaction when present (`none` models the
out-of-bounds panic), else returns the witness-style output when present,
else hits the `unreachable!` arm (`none`). -/
def Utxo.txout : Utxo → Option TxOut
  | .Local lu => some lu.txout
  | .Foreign op pi =>
    match pi.non_witness_utxo with
    | some prev_tx => prev_tx.output[op.vout]?
    | none =>
      match pi.witness_utxo with
      | some t => some t
      | none => none

/-! ### TransactionDetails and its ordering (`impl Ord for TransactionDetails`)

`Ord for TransactionDetails` delegates first to
`ConfirmationTime::cmp` (from the `bdk_chain` crate, outside the provided
sources) and then compares transaction ids.  Following the spec, which leaves
the delegated ordering to that collaborator's own rule, the comparator on
`ConfirmationTime` is a parameter; `ConfirmationTime.cmpModel` below is a
concrete lawful instantiation used for witnesses. -/

/-- A wallet-relevant transaction summary (`struct TransactionDetails`). -/
structure TransactionDetails where
  transaction : Option Transaction
  txid : List ℕ
  received : ℕ
  sent : ℕ
  fee : Option ℕ
  confirmation_time : ConfirmationTime

/-- Three-way comparison of naturals. -/
def natCmp (m n : ℕ) : Ordering :=
  if m < n then .lt else if n < m then .gt else .eq

/-- Lexicographic comparison of byte strings, as Rust compares the byte
arrays backing transaction ids. -/
def lexCmp : List ℕ → List ℕ → Ordering
  | [], [] => .eq
  | [], _ :: _ => .lt
  | _ :: _, [] => .gt
  | a :: as, b :: bs => (natCmp a b).then (lexCmp as bs)

/-- `Ord::cmp for TransactionDetails`:
`self.confirmation_time.cmp(..).then_with(|| self.txid.cmp(..))`, with the
delegated `ConfirmationTime` comparison passed as `ctCmp`. -/
def TransactionDetails.cmp (ctCmp : ConfirmationTime → ConfirmationTime → Ordering)
    (a b : TransactionDetails) : Ordering :=
  (ctCmp a.confirmation_time b.confirmation_time).then (lexCmp a.txid b.txid)

/-- Modelled from the spec: a concrete lawful comparison for
`ConfirmationTime` — confirmed entries lexicographically by (height, time);
the spec leaves the relative order of unconfirmed and confirmed entries to
the collaborator crate, and this model fixes confirmed < unconfirmed. -/
def ConfirmationTime.cmpModel : ConfirmationTime → ConfirmationTime → Ordering
  | .confirmed h1 t1, .confirmed h2 t2 => (natCmp h1 h2).then (natCmp t1 t2)
  | .confirmed _ _, .unconfirmed => .lt
  | .unconfirmed, .confirmed _ _ => .gt
  | .unconfirmed, .unconfirmed => .eq

theorem then_eq_lt {o p : Ordering} :
    o.then p = .lt ↔ o = .lt ∨ (o = .eq ∧ p = .lt) := by
  cases o <;> simp [Ordering.then]

theorem then_eq_eq {o p : Ordering} :
    o.then p = .eq ↔ o = .eq ∧ p = .eq := by
  cases o <;> simp [Ordering.then]

theorem then_swap (o p : Ordering) :
    (o.then p).swap = o.swap.then p.swap := by
  cases o <;> rfl

theorem natCmp_eq_iff {m n : ℕ} : natCmp m n = .eq ↔ m = n := by
  unfold natCmp
  split_ifs <;> simp <;> omega

theorem natCmp_lt_iff {m n : ℕ} : natCmp m n = .lt ↔ m < n := by
  unfold natCmp
  split_ifs <;> simp <;> omega

theorem natCmp_swap (m n : ℕ) : natCmp n m = (natCmp m n).swap := by
  unfold natCmp
  split_ifs <;> first | rfl | omega

theorem lexCmp_eq_iff : ∀ (xs ys : List ℕ), lexCmp xs ys = .eq ↔ xs = ys
  | [], [] => by simp [lexCmp]
  | [], _ :: _ => by simp [lexCmp]
  | _ :: _, [] => by simp [lexCmp]
  | a :: as, b :: bs => by
    rw [lexCmp, then_eq_eq, natCmp_eq_iff, lexCmp_eq_iff as bs]
    simp

theorem lexCmp_swap : ∀ (xs ys : List ℕ), lexCmp ys xs = (lexCmp xs ys).swap
  | [], [] => rfl
  | [], _ :: _ => rfl
  | _ :: _, [] => rfl
  | a :: as, b :: bs => by
    rw [lexCmp, lexCmp, natCmp_swap, lexCmp_swap as bs, ← then_swap]

theorem lexCmp_lt_trans :
    ∀ (xs ys zs : List ℕ), lexCmp xs ys = .lt → lexCmp ys zs = .lt →
      lexCmp xs zs = .lt
  | [], [], _, h1, _ => by simp [lexCmp] at h1
  | [], _ :: _, [], _, h2 => by simp [lexCmp] at h2
  | [], _ :: _, _ :: _, _, _ => rfl
  | _ :: _, [], _, h1, _ => by simp [lexCmp] at h1
  | _ :: _, _ :: _, [], _, h2 => by simp [lexCmp] at h2
  | a :: as, b :: bs, c :: cs, h1, h2 => by
    rw [lexCmp, then_eq_lt] at h1 h2 ⊢
    rcases h1 with h1 | ⟨h1e, h1l⟩ <;> rcases h2 with h2 | ⟨h2e, h2l⟩
    · rw [natCmp_lt_iff] at h1 h2 ⊢
      left; omega
    · rw [natCmp_eq_iff] at h2e
      rw [natCmp_lt_iff] at h1
      left; rw [natCmp_lt_iff]; omega
    · rw [natCmp_eq_iff] at h1e
      rw [natCmp_lt_iff] at h2
      left; rw [natCmp_lt_iff]; omega
    · rw [natCmp_eq_iff] at h1e h2e
      right
      exact ⟨by rw [natCmp_eq_iff]; omega, lexCmp_lt_trans as bs cs h1l h2l⟩

theorem lexCmp_refl (xs : List ℕ) : lexCmp xs xs = .eq := (lexCmp_eq_iff xs xs).mpr rfl

theorem cmpModel_eq_iff (x y : ConfirmationTime) :
    ConfirmationTime.cmpModel x y = .eq ↔ x = y := by
  cases x <;> cases y <;> simp [ConfirmationTime.cmpModel, then_eq_eq, natCmp_eq_iff]

theorem cmpModel_swap (x y : ConfirmationTime) :
    ConfirmationTime.cmpModel y x = (ConfirmationTime.cmpModel x y).swap := by
  cases x <;> cases y <;> try rfl
  simp only [ConfirmationTime.cmpModel]
  rw [then_swap, ← natCmp_swap, ← natCmp_swap]

theorem cmpModel_lt_trans (x y z : ConfirmationTime)
    (h1 : ConfirmationTime.cmpModel x y = .lt)
    (h2 : ConfirmationTime.cmpModel y z = .lt) :
    ConfirmationTime.cmpModel x z = .lt := by
  cases x with
  | unconfirmed =>
    cases y with
    | unconfirmed => exact absurd h1 (by simp [ConfirmationTime.cmpModel])
    | confirmed hy ty => exact absurd h1 (by simp [ConfirmationTime.cmpModel])
  | confirmed hx tx =>
    cases z with
    | unconfirmed =>
      rfl
    | confirmed hz tz =>
      cases y with
      | unconfirmed => exact absurd h2 (by simp [ConfirmationTime.cmpModel])
      | confirmed hy ty =>
        simp only [ConfirmationTime.cmpModel, then_eq_lt] at h1 h2 ⊢
        rcases h1 with h1 | ⟨h1e, h1l⟩ <;> rcases h2 with h2 | ⟨h2e, h2l⟩
        · left
          rw [natCmp_lt_iff] at h1 h2 ⊢
          omega
        · left
          rw [natCmp_lt_iff] at h1 ⊢
          rw [natCmp_eq_iff] at h2e
          omega
        · left
          rw [natCmp_lt_iff] at h2 ⊢
          rw [natCmp_eq_iff] at h1e
          omega
        · right
          rw [natCmp_eq_iff] at h1e h2e ⊢
          rw [natCmp_lt_iff] at h1l h2l ⊢
          exact ⟨by omega, by omega⟩

theorem cmpModel_congr (x y z : ConfirmationTime)
    (h : ConfirmationTime.cmpModel x y = .eq) :
    ConfirmationTime.cmpModel x z = ConfirmationTime.cmpModel y z := by
  rw [(cmpModel_eq_iff x y).mp h]

/-! ### Claim theorems -/

/-- C9: `KeychainKind::as_byte` returns the byte `'e'` (101) for `External`
and `'i'` (105) for `Internal`, the byte-slice view returns the single-byte
slices `b"e"` and `b"i"`, and the two representations agree for both
variants; both operations are pure and total. -/
theorem keychainKind_byte_encoding :
    KeychainKind.as_byte .External = 101 ∧ KeychainKind.as_byte .Internal = 105 ∧
    KeychainKind.as_ref .External = [101] ∧ KeychainKind.as_ref .Internal = [105] ∧
    ∀ k : KeychainKind, KeychainKind.as_ref k = [KeychainKind.as_byte k] := by
  refine ⟨rfl, rfl, rfl, rfl, ?_⟩
  intro k
  cases k <;> rfl

/-- C3: `Utxo::txout` resolves `Local` to the stored output; for `Foreign`
it indexes the full previous transaction at the outpoint's output index
whenever that transaction is present (regardless of the witness-style
output), else returns the witness-style output when present, and hits the
fatal `unreachable!` (modelled `none`) when neither is present. -/
theorem utxo_txout_resolution :
    ∀ (lu : LocalUtxo) (op : OutPoint) (pi : PsbtInput),
      (Utxo.txout (Utxo.Local lu) = some lu.txout) ∧
      (∀ tx, pi.non_witness_utxo = some tx →
        ∀ h : op.vout < tx.output.length,
          Utxo.txout (Utxo.Foreign op pi) = some (tx.output.get ⟨op.vout, h⟩)) ∧
      (∀ w, pi.non_witness_utxo = none → pi.witness_utxo = some w →
        Utxo.txout (Utxo.Foreign op pi) = some w) ∧
      (pi.non_witness_utxo = none → pi.witness_utxo = none →
        Utxo.txout (Utxo.Foreign op pi) = none) := by
  intro lu op pi
  refine ⟨rfl, ?_, ?_, ?_⟩
  · intro tx hn h
    simp [Utxo.txout, hn, List.getElem?_eq_getElem h]
  · intro w hn hw
    simp [Utxo.txout, hn, hw]
  · intro hn hw
    simp [Utxo.txout, hn, hw]

theorem utxo_txout_resolution_witness :
    Utxo.txout (Utxo.Foreign ⟨[7], 1⟩
      ⟨some ⟨[⟨5, [0]⟩, ⟨9, [1]⟩]⟩, some ⟨3, [2]⟩⟩) = some ⟨9, [1]⟩ :=
  (utxo_txout_resolution ⟨⟨[], 0⟩, ⟨0, []⟩, .External, false, 0, .unconfirmed⟩
      ⟨[7], 1⟩ ⟨some ⟨[⟨5, [0]⟩, ⟨9, [1]⟩]⟩, some ⟨3, [2]⟩⟩).2.1
    ⟨[⟨5, [0]⟩, ⟨9, [1]⟩]⟩ rfl (by simp)

/-- C10: for a `Foreign` UTXO whose input carries the full previous
transaction, an outpoint index past the end of that transaction's outputs
panics (modelled `none`), and the witness-style output is never consulted as
a fallback even when present. -/
theorem utxo_txout_oob_panics :
    ∀ (op : OutPoint) (pi : PsbtInput) (tx : Transaction) (w : TxOut),
      pi.non_witness_utxo = some tx →
      tx.output.length ≤ op.vout →
      pi.witness_utxo = some w →
      Utxo.txout (Utxo.Foreign op pi) = none := by
  intro op pi tx w hn hlen hw
  simp [Utxo.txout, hn]
  exact hlen

theorem utxo_txout_oob_panics_witness :
    Utxo.txout (Utxo.Foreign ⟨[7], 5⟩ ⟨some ⟨[⟨5, [0]⟩]⟩, some ⟨3, [2]⟩⟩) = none :=
  utxo_txout_oob_panics ⟨[7], 5⟩ ⟨some ⟨[⟨5, [0]⟩]⟩, some ⟨3, [2]⟩⟩
    ⟨[⟨5, [0]⟩]⟩ ⟨3, [2]⟩ rfl (by simp) rfl

/-- C2: `FeeRate::new_checked` (reached by `from_sat_per_vb` and the other
unit constructors) panics (`none`) on negative zero, any negative value, NaN,
positive infinity, and positive subnormal nonzero values, and succeeds storing
the value on positive zero and any normal positive value. -/
theorem new_checked_validation :
    ∀ (q : ℚ) (nz : Bool),
      FeeRate.new_checked F32.nan = none ∧
      FeeRate.new_checked (F32.inf false) = none ∧
      FeeRate.new_checked (F32.inf true) = none ∧
      FeeRate.new_checked (F32.finite 0 true) = none ∧
      (q < 0 → FeeRate.new_checked (F32.finite q nz) = none) ∧
      (0 < q → q < pow2 (-126) → FeeRate.new_checked (F32.finite q nz) = none) ∧
      FeeRate.new_checked (F32.finite 0 false) = some (F32.finite 0 false) ∧
      (pow2 (-126) ≤ q → q < pow2 128 →
        FeeRate.new_checked (F32.finite q nz) = some (F32.finite q nz)) := by
  intro q nz
  refine ⟨rfl, rfl, rfl, ?_, ?_, ?_, ?_, ?_⟩
  · simp [FeeRate.new_checked, F32.is_sign_positive, F32.sign_bit]
  · intro h
    have h0 : q ≠ 0 := ne_of_lt h
    have hsb : F32.sign_bit (F32.finite q nz) = true := by
      simp only [F32.sign_bit, if_neg h0]
      exact decide_eq_true h
    simp [FeeRate.new_checked, F32.is_sign_positive, hsb]
  · intro hpos hsub
    have h0 : q ≠ 0 := ne_of_gt hpos
    have hnm : isNormalMag q = false := by
      simp only [isNormalMag, decide_eq_false_iff_not]
      rintro ⟨hc, -⟩
      rw [abs_of_pos hpos] at hc
      linarith
    simp [FeeRate.new_checked, F32.is_normal, F32.eqZero, hnm, h0]
  · simp [FeeRate.new_checked, F32.is_normal, F32.eqZero, F32.is_sign_positive, F32.sign_bit]
  · intro hle hlt
    have hpos : 0 < q := lt_of_lt_of_le (pow2_pos _) hle
    have hnm : isNormalMag q = true := by
      simp only [isNormalMag, decide_eq_true_eq]
      rw [abs_of_pos hpos]
      exact ⟨hle, hlt⟩
    have hsb : F32.sign_bit (F32.finite q nz) = false := by
      simp only [F32.sign_bit, if_neg (ne_of_gt hpos)]
      simpa using not_lt.mpr (le_of_lt hpos)
    simp [FeeRate.new_checked, F32.is_normal, F32.is_sign_positive, hnm, hsb]

theorem new_checked_validation_witness :
    FeeRate.new_checked (F32.finite (-1) false) = none ∧
    FeeRate.new_checked (F32.finite 1 false) = some (F32.finite 1 false) :=
  ⟨(new_checked_validation (-1) false).2.2.2.2.1 (by norm_num),
   (new_checked_validation 1 false).2.2.2.2.2.2.2
     (of_decide_eq_true (by with_unfolding_all rfl))
     (of_decide_eq_true (by with_unfolding_all rfl))⟩

/-- C4: round-tripping 1 sat/vbyte through each unit constructor and reading
back `as_sat_per_vb` yields 1.0 within `f32::EPSILON = 2 ^ (-23)`:
`from_sat_per_vb(1.0)`, `from_sat_per_kvb(1000.0)`, `from_sat_per_kwu(250.0)`
and `from_btc_per_kvb(1e-5)` (the `f32` literal `1e-5` being the rounding of
`1 / 100000`) all store a value within epsilon of 1. -/
theorem feerate_unit_roundtrip :
    (∃ r, FeeRate.from_sat_per_vb 1 = some r ∧
      |FeeRate.as_sat_per_vb r - 1| < pow2 (-23)) ∧
    (∃ r, FeeRate.from_sat_per_kvb 1000 = some r ∧
      |FeeRate.as_sat_per_vb r - 1| < pow2 (-23)) ∧
    (∃ r, FeeRate.from_sat_per_kwu 250 = some r ∧
      |FeeRate.as_sat_per_vb r - 1| < pow2 (-23)) ∧
    (∃ r, FeeRate.from_btc_per_kvb (f32round (1 / 100000)) = some r ∧
      |FeeRate.as_sat_per_vb r - 1| < pow2 (-23)) := by
  refine ⟨⟨1, ?_, ?_⟩, ⟨1, ?_, ?_⟩, ⟨1, ?_, ?_⟩, ⟨1, ?_, ?_⟩⟩ <;>
    with_unfolding_all rfl

/-- C1 counterexample: at `wu = 2 ^ 24 + 1 = 16777217` the `usize → f32`
conversion in `vbytes` rounds to `2 ^ 24` (ties to even), so the result is
`4194304` while the true ceiling of `wu / 4` is `4194305` — an undercount at
a representable input, refuting the claim as stated. -/
theorem vbytes_ceiling_counterexample :
    vbytes 16777217 = 4194304 ∧ (16777217 + 3) / 4 = 4194305 ∧
      vbytes 16777217 < (16777217 + 3) / 4 := by
  refine ⟨?_, rfl, ?_⟩
  · with_unfolding_all rfl
  · exact of_decide_eq_true (by with_unfolding_all rfl)

/-- C1 (amended): for every weight-unit count `wu ≤ 2 ^ 24` (where the `f32`
arithmetic is exact), `vbytes wu` is exactly the ceiling of `wu / 4`,
computed as `(wu + 3) / 4` in natural division. -/
theorem vbytes_ceiling_up_to_2pow24 (wu : ℕ) (h : wu ≤ 2 ^ 24) :
    vbytes wu = (wu + 3) / 4 :=
  vbytes_exact wu h

theorem vbytes_ceiling_up_to_2pow24_witness : vbytes 7 = 2 :=
  vbytes_ceiling_up_to_2pow24 7 (by norm_num)

/-- C5 counterexample: with the validly constructed rate `1.0` and
`vbytes = 16777217`, `fee_vb` returns `16777216`, strictly below the ceiling
of the exact product `1 × 16777217`, refuting "never an undercount" as
stated. -/
theorem fee_vb_ceiling_counterexample :
    validRate 1 = true ∧ FeeRate.fee_vb 1 16777217 = 16777216 ∧
      (⌈(1 : ℚ) * 16777217⌉).toNat = 16777217 := by
  refine ⟨?_, ?_, ?_⟩ <;> with_unfolding_all rfl

/-- C5 (amended): `fee_vb` returns the ceiling of the `f32`-computed product
of the stored rate and the `f32` conversion of `vbytes` — never below that
computed product and within one unit above it — but the product itself is
rounded, so the result can undercount the exact real product; the claim's
example holds: rate `1/3` (as `f32`) over 10 vbytes gives 4, not 3. -/
theorem fee_vb_rounds_up_f32_product :
    (∀ (r : ℚ) (v : ℕ), validRate r = true →
      f32round (r * f32round (v : ℚ)) ≤ (FeeRate.fee_vb r v : ℚ) ∧
        (FeeRate.fee_vb r v : ℚ) < f32round (r * f32round (v : ℚ)) + 1) ∧
    FeeRate.fee_vb (f32round (1 / 3)) 10 = 4 := by
  constructor
  · intro r v hr
    have hp : 0 ≤ f32round (r * f32round (v : ℚ)) :=
      f32round_nonneg (mul_nonneg (validRate_nonneg hr) (f32round_nonneg (Nat.cast_nonneg v)))
    have hceil : (0 : ℤ) ≤ ⌈f32round (r * f32round (v : ℚ))⌉ := Int.ceil_nonneg hp
    have hcast : ((FeeRate.fee_vb r v : ℕ) : ℚ) =
        ((⌈f32round (r * f32round (v : ℚ))⌉ : ℤ) : ℚ) := by
      unfold FeeRate.fee_vb FeeRate.as_sat_per_vb
      rw [← Int.cast_natCast, Int.toNat_of_nonneg hceil]
    refine ⟨?_, ?_⟩
    · rw [hcast]
      exact Int.le_ceil _
    · rw [hcast]
      exact Int.ceil_lt_add_one _
  · with_unfolding_all rfl

theorem fee_vb_rounds_up_f32_product_witness :
    validRate 1 = true ∧
      (f32round ((1 : ℚ) * f32round ((3 : ℕ) : ℚ)) ≤ (FeeRate.fee_vb 1 3 : ℚ) ∧
        (FeeRate.fee_vb 1 3 : ℚ) < f32round ((1 : ℚ) * f32round ((3 : ℕ) : ℚ)) + 1) :=
  ⟨by with_unfolding_all rfl,
   fee_vb_rounds_up_f32_product.1 1 3 (by with_unfolding_all rfl)⟩

/-- C6 counterexample: at `wu = 2 ^ 24 + 1` with the valid rate `1.0`,
`fee_wu` goes through the `f32`-lossy `vbytes` (`4194304`) and yields
`4194304`, while `fee_vb` at the exact ceiling `(wu + 3) / 4 = 4194305`
yields `4194305`, refuting the claimed identity for all `wu`. -/
theorem fee_wu_ceiling_counterexample :
    validRate 1 = true ∧ FeeRate.fee_wu 1 16777217 = 4194304 ∧
      FeeRate.fee_vb 1 ((16777217 + 3) / 4) = 4194305 := by
  refine ⟨?_, ?_, ?_⟩ <;> with_unfolding_all rfl

/-- C6 (amended): for every validly constructed rate and every weight-unit
count `wu ≤ 2 ^ 24`, `fee_wu wu` equals `fee_vb` applied to the exact
ceiling of `wu / 4`. -/
theorem fee_wu_eq_fee_vb_ceiling_up_to_2pow24 (r : ℚ) (wu : ℕ)
    (_hr : validRate r = true) (h : wu ≤ 2 ^ 24) :
    FeeRate.fee_wu r wu = FeeRate.fee_vb r ((wu + 3) / 4) := by
  unfold FeeRate.fee_wu
  rw [vbytes_exact wu h]

theorem fee_wu_eq_fee_vb_ceiling_up_to_2pow24_witness :
    FeeRate.fee_wu 1 10 = FeeRate.fee_vb 1 3 :=
  fee_wu_eq_fee_vb_ceiling_up_to_2pow24 1 10 (by with_unfolding_all rfl) (by norm_num)

/-- C8 counterexample: both `2 ^ 25` and `1` are valid rates, but the `f32`
subtraction rounds `2 ^ 25 - 1` back up to `2 ^ 25` (ties to even), so the
stored result is not exactly the difference of the stored values. -/
theorem feerate_sub_exact_counterexample :
    validRate 33554432 = true ∧ validRate 1 = true ∧
      FeeRate.sub 33554432 1 = 33554432 ∧ (33554432 : ℚ) - 1 = 33554431 := by
  refine ⟨?_, ?_, ?_, ?_⟩ <;> with_unfolding_all rfl

/-- C8 (amended): subtraction stores the difference rounded to the nearest
`f32` (exactly the difference whenever that difference is representable),
with no validation applied: the result may be zero or negative — values the
construction invariant would reject. -/
theorem feerate_sub_rounded_unvalidated :
    (∀ (a b : ℚ) (m t : ℤ), validRate a = true → validRate b = true →
      a - b = (m : ℚ) * pow2 t → m ≠ 0 → |m| ≤ 2 ^ 24 → -150 ≤ t → t ≤ 125 →
      FeeRate.sub a b = a - b) ∧
    FeeRate.sub 1 1 = 0 ∧ FeeRate.sub 1 2 = -1 ∧ validRate (-1) = false := by
  refine ⟨?_, ?_, ?_, ?_⟩
  · intro a b m t ha hb heq hm0 hm ht1 ht2
    have h24 : (2 : ℤ) ^ 24 = 16777216 := by norm_num
    have habs := abs_le.mp hm
    unfold FeeRate.sub
    rw [heq]
    rcases lt_or_gt_of_ne hm0 with hneg | hpos
    · have h1 : (m : ℚ) * pow2 t = -(((-m : ℤ) : ℚ) * pow2 t) := by push_cast; ring
      rw [h1, f32round_neg, f32round_fix (by omega) (by omega) ht1 ht2]
    · rw [f32round_fix hpos (by omega) ht1 ht2]
  · with_unfolding_all rfl
  · with_unfolding_all rfl
  · with_unfolding_all rfl

theorem feerate_sub_rounded_unvalidated_witness :
    FeeRate.sub 3 2 = 3 - 2 :=
  feerate_sub_rounded_unvalidated.1 3 2 1 0 (by with_unfolding_all rfl)
    (by with_unfolding_all rfl) (by with_unfolding_all rfl) (by norm_num)
    (by norm_num) (by norm_num) (by norm_num)

/-- C7: with the delegated comparison on confirmation statuses assumed lawful
(antisymmetric by `swap`, transitive, and with `eq` substitutive — the
contract of the collaborator's total order), the `TransactionDetails`
comparison compares first by confirmation status, breaks ties by the
transaction id lexicographically (so among records confirmed at the same
height and timestamp the smaller id sorts first), and is a strict total
order on the (confirmation status, id) key: asymmetric under `swap`,
transitive for every triple, with `eq` exactly on equal keys. -/
theorem transactionDetails_cmp_total_order :
    ∀ (ctCmp : ConfirmationTime → ConfirmationTime → Ordering),
      (∀ x y, ctCmp y x = (ctCmp x y).swap) →
      (∀ x y z, ctCmp x y = .lt → ctCmp y z = .lt → ctCmp x z = .lt) →
      (∀ x y z, ctCmp x y = .eq → ctCmp x z = ctCmp y z) →
      (∀ a b, ctCmp a.confirmation_time b.confirmation_time ≠ .eq →
        TransactionDetails.cmp ctCmp a b = ctCmp a.confirmation_time b.confirmation_time) ∧
      (∀ a b, ctCmp a.confirmation_time b.confirmation_time = .eq →
        TransactionDetails.cmp ctCmp a b = lexCmp a.txid b.txid) ∧
      (∀ a b h t, a.confirmation_time = ConfirmationTime.confirmed h t →
        b.confirmation_time = ConfirmationTime.confirmed h t →
        lexCmp a.txid b.txid = .lt → TransactionDetails.cmp ctCmp a b = .lt) ∧
      (∀ a b, TransactionDetails.cmp ctCmp b a = (TransactionDetails.cmp ctCmp a b).swap) ∧
      (∀ a b c, TransactionDetails.cmp ctCmp a b = .lt →
        TransactionDetails.cmp ctCmp b c = .lt → TransactionDetails.cmp ctCmp a c = .lt) ∧
      (∀ a b, TransactionDetails.cmp ctCmp a b = .eq ↔
        ctCmp a.confirmation_time b.confirmation_time = .eq ∧ a.txid = b.txid) := by
  intro ctCmp hswap htrans hcongr
  have hrefl : ∀ x, ctCmp x x = .eq := by
    intro x
    have h := hswap x x
    cases hx : ctCmp x x with
    | lt => rw [hx] at h; exact absurd h (by decide)
    | gt => rw [hx] at h; exact absurd h (by decide)
    | eq => rfl
  have hcongrR : ∀ x y z, ctCmp x y = .eq → ctCmp z x = ctCmp z y := by
    intro x y z hxy
    rw [hswap x z, hswap y z, hcongr x y z hxy]
  refine ⟨?_, ?_, ?_, ?_, ?_, ?_⟩
  · intro a b hne
    unfold TransactionDetails.cmp
    cases hab : ctCmp a.confirmation_time b.confirmation_time with
    | lt => rfl
    | gt => rfl
    | eq => exact absurd hab hne
  · intro a b hab
    unfold TransactionDetails.cmp
    rw [hab]
    rfl
  · intro a b h t hat hbt hlex
    unfold TransactionDetails.cmp
    rw [hat, hbt, hrefl, hlex]
    rfl
  · intro a b
    unfold TransactionDetails.cmp
    rw [then_swap, ← hswap, ← lexCmp_swap]
  · intro a b c h1 h2
    unfold TransactionDetails.cmp at h1 h2 ⊢
    rw [then_eq_lt] at h1 h2 ⊢
    rcases h1 with h1 | ⟨h1e, h1l⟩ <;> rcases h2 with h2 | ⟨h2e, h2l⟩
    · exact Or.inl (htrans _ _ _ h1 h2)
    · left
      rw [← hcongrR _ _ a.confirmation_time h2e]
      exact h1
    · left
      rw [hcongr _ _ _ h1e]
      exact h2
    · right
      refine ⟨?_, lexCmp_lt_trans _ _ _ h1l h2l⟩
      rw [hcongr _ _ _ h1e]
      exact h2e
  · intro a b
    unfold TransactionDetails.cmp
    rw [then_eq_eq, lexCmp_eq_iff]

theorem transactionDetails_cmp_total_order_witness :
    TransactionDetails.cmp ConfirmationTime.cmpModel
        ⟨none, [0], 0, 0, none, .confirmed 100 5⟩
        ⟨none, [1], 0, 0, none, .confirmed 100 5⟩ = .lt :=
  (transactionDetails_cmp_total_order ConfirmationTime.cmpModel cmpModel_swap
      cmpModel_lt_trans cmpModel_congr).2.2.1
    ⟨none, [0], 0, 0, none, .confirmed 100 5⟩
    ⟨none, [1], 0, 0, none, .confirmed 100 5⟩
    100 5 rfl rfl (by decide)
